import Mathlib

/-!
# Verification of the Yahoo Finance CLI wrapper

Shallow embedding of `src/lib/api/yahoo_finance.py`, a single-file script:

* `get_stock_data(symbol, interval='1d', range='1y')` builds a query mapping
  `{symbol, interval, range, region: 'TW', includeAdjustedClose: True}` and calls
  `client.call_api('YahooFinance/get_stock_chart', query=...)`, returning the
  response unchanged.
* The `__main__` block reads up to three positional CLI arguments (with defaults
  `'2330.TW'`, `'1d'`, `'1y'`), calls `get_stock_data`, and prints
  `json.dumps(data)`.

The external `ApiClient.call_api` capability is modelled as an explicit function
parameter of type `String → Query → Except ε Json` (the spec's "injectable
capability" view); everything else is translated directly from the source.
-/

/-- A value occurring in the query mapping sent to the external capability:
the Python dict literal holds strings and the boolean `True`. -/
inductive QVal where
  | str (s : String)
  | bool (b : Bool)
deriving DecidableEq, Repr

/-- The query is the Python dict literal, embedded as an ordered association
list (Python dicts preserve insertion order, and the literal has exactly these
five keys). -/
abbrev Query := List (String × QVal)

/-- JSON-like structured data: the opaque response returned by the external
capability and serialized by `json.dumps`.  Strings are kept as `List Char` to
match the character-level serializer below; numbers are integers. -/
inductive Json where
  | null
  | bool (b : Bool)
  | num (n : Int)
  | str (s : List Char)
  | arr (elts : List Json)
  | obj (members : List (List Char × Json))

/-- The endpoint name passed to `client.call_api` in the source. -/
def stockChartEndpoint : String := "YahooFinance/get_stock_chart"

/-- The query dict built inside `get_stock_data` (source lines 22–27): the three
parameters plus the hardcoded `region: 'TW'` and `includeAdjustedClose: True`. -/
def buildQuery (symbol interval range : String) : Query :=
  [ ("symbol", QVal.str symbol),
    ("interval", QVal.str interval),
    ("range", QVal.str range),
    ("region", QVal.str "TW"),
    ("includeAdjustedClose", QVal.bool true) ]

/-- `get_stock_data` (source lines 6–29), parametrized by the external
`call_api` capability.  It performs the single call and returns the capability's
result unchanged; the Python parameter defaults `interval='1d'`, `range='1y'`
are kept as Lean default arguments. -/
def get_stock_data {ε : Type} (call_api : String → Query → Except ε Json)
    (symbol : String) (interval : String := "1d") (range : String := "1y") :
    Except ε Json :=
  call_api stockChartEndpoint (buildQuery symbol interval range)

/-- The `__main__` argument handling (source lines 31–48): `argv` is the full
`sys.argv` (program name first).  Each of the three parameters is taken from
`sys.argv[i]` when `len(sys.argv) >= i+1`, and otherwise defaults.
`List.getD i d` returns element `i` when `i < argv.length` and `d` otherwise,
which is exactly the source's length tests. -/
def parseArgs (argv : List String) : String × String × String :=
  (argv.getD 1 "2330.TW", argv.getD 2 "1d", argv.getD 3 "1y")

/-- The query the program constructs for a given command line. -/
def programQuery (argv : List String) : Query :=
  let (symbol, interval, range) := parseArgs argv
  buildQuery symbol interval range

/-! ## `json.dumps` serializer

`print(json.dumps(data))` serializes the response with the library defaults:
item separator `", "`, key separator `": "`, and `ensure_ascii=True`, which
leaves printable ASCII (0x20–0x7e) as-is, uses the short escapes for
`"` `\` `\b` `\f` `\n` `\r` `\t`, and `\uXXXX` (lowercase hex, surrogate pairs
above 0xFFFF) for every other character. -/

/-- Lowercase hexadecimal digit for `n < 16`. -/
def hexDigitChar (n : Nat) : Char :=
  if n < 10 then Char.ofNat (48 + n) else Char.ofNat (87 + n)

/-- The 6-character escape `\uXXXX` of a code unit `n < 0x10000`. -/
def uEsc (n : Nat) : List Char :=
  ['\\', 'u', hexDigitChar (n / 4096 % 16), hexDigitChar (n / 256 % 16),
   hexDigitChar (n / 16 % 16), hexDigitChar (n % 16)]

/-- Escape of one character inside a JSON string literal. -/
def escChar (c : Char) : List Char :=
  if c = '"' then ['\\', '"']
  else if c = '\\' then ['\\', '\\']
  else if c = '\x08' then ['\\', 'b']
  else if c = '\x0c' then ['\\', 'f']
  else if c = '\n' then ['\\', 'n']
  else if c = '\r' then ['\\', 'r']
  else if c = '\t' then ['\\', 't']
  else if c.toNat < 0x20 ∨ 0x7f ≤ c.toNat then
    if c.toNat < 0x10000 then uEsc c.toNat
    else uEsc (0xD800 + (c.toNat - 0x10000) / 0x400) ++
         uEsc (0xDC00 + (c.toNat - 0x10000) % 0x400)
  else [c]

/-- A JSON string literal: quoted, character-wise escaped. -/
def strLit (s : List Char) : List Char :=
  '"' :: (s.map escChar).flatten ++ ['"']

/-- Decimal digits of a natural number (`str(n)` for `n : Nat`). -/
def natChars (n : Nat) : List Char :=
  if n = 0 then ['0'] else (Nat.digits 10 n).reverse.map Nat.digitChar

/-- Decimal rendering of an integer (`str(n)` for a Python int). -/
def intChars (n : Int) : List Char :=
  if n < 0 then '-' :: natChars n.natAbs else natChars n.toNat

mutual

/-- `json.dumps` on the embedded value type, producing the character list
printed to standard output. -/
def jdumps : Json → List Char
  | .null => ['n', 'u', 'l', 'l']
  | .bool b => if b then ['t', 'r', 'u', 'e'] else ['f', 'a', 'l', 's', 'e']
  | .num n => intChars n
  | .str s => strLit s
  | .arr elts => '[' :: jdumpsElems elts ++ [']']
  | .obj ms => '{' :: jdumpsMembers ms ++ ['}']

/-- Array elements joined by `", "`. -/
def jdumpsElems : List Json → List Char
  | [] => []
  | [x] => jdumps x
  | x :: y :: xs => jdumps x ++ ',' :: ' ' :: jdumpsElems (y :: xs)

/-- Object members `key: value` joined by `", "`. -/
def jdumpsMembers : List (List Char × Json) → List Char
  | [] => []
  | [(k, v)] => strLit k ++ ':' :: ' ' :: jdumps v
  | (k, v) :: m :: ms =>
      strLit k ++ ':' :: ' ' :: jdumps v ++ ',' :: ' ' :: jdumpsMembers (m :: ms)

end

/-- The whole program for a given command line: parse arguments with defaults,
fetch, and serialize the response (the line printed to standard output); a
failure of the capability propagates and nothing is printed. -/
def runProgram {ε : Type} (call_api : String → Query → Except ε Json)
    (argv : List String) : Except ε (List Char) :=
  let (symbol, interval, range) := parseArgs argv
  (get_stock_data call_api symbol interval range).map jdumps

/-! ## Step relation for the temporal claims

The script is straight-line code: parse arguments, make the single outbound
call, print (or propagate the failure).  The labelled step relation records
each outbound call as `(endpoint, query)`. -/

/-- One outbound call: endpoint name and query mapping. -/
abbrev Call := String × Query

/-- Program states: before the fetch, after the fetch, and the two terminal
states (result printed / failure propagated out of the process). -/
inductive PState (ε : Type) where
  | start (argv : List String)
  | fetched (result : Except ε Json)
  | printed (line : List Char)
  | failed (e : ε)

/-- The labelled step relation of the script: `fetch` performs the one
outbound call, `output` prints `json.dumps(data)`, `raise` propagates the
capability's failure.  No transition leaves `printed` or `failed`. -/
inductive Step {ε : Type} (call_api : String → Query → Except ε Json) :
    PState ε → List Call → PState ε → Prop where
  | fetch (argv : List String) :
      Step call_api (.start argv) [(stockChartEndpoint, programQuery argv)]
        (.fetched (call_api stockChartEndpoint (programQuery argv)))
  | output (v : Json) :
      Step call_api (.fetched (.ok v)) [] (.printed (jdumps v))
  | raise (e : ε) :
      Step call_api (.fetched (.error e)) [] (.failed e)

/-- Reflexive-transitive closure of `Step`, concatenating the call traces. -/
inductive Exec {ε : Type} (call_api : String → Query → Except ε Json) :
    PState ε → List Call → PState ε → Prop where
  | refl (s : PState ε) : Exec call_api s [] s
  | tail {s₁ s₂ s₃ : PState ε} {t l : List Call} :
      Exec call_api s₁ t s₂ → Step call_api s₂ l s₃ → Exec call_api s₁ (t ++ l) s₃

/-- Number of outbound calls already performed in a state. -/
def callsMade {ε : Type} : PState ε → Nat
  | .start _ => 0
  | .fetched _ => 1
  | .printed _ => 1
  | .failed _ => 1

/-! ## Helper lemmas and concrete capabilities for witnesses -/

/-- A capability that always succeeds with `null`. -/
def okNullCap : String → Query → Except String Json :=
  fun _ _ => Except.ok Json.null

/-- A capability that always fails. -/
def errCap : String → Query → Except String Json :=
  fun _ _ => Except.error "boom"

theorem step_calls {ε : Type} {call_api : String → Query → Except ε Json}
    {s s' : PState ε} {l : List Call} (h : Step call_api s l s') :
    callsMade s + l.length = callsMade s' := by
  cases h <;> rfl

theorem exec_calls {ε : Type} {call_api : String → Query → Except ε Json}
    {s s' : PState ε} {t : List Call} (h : Exec call_api s t s') :
    callsMade s + t.length = callsMade s' := by
  induction h with
  | refl => rfl
  | tail hexec hstep ih =>
      have := step_calls hstep
      simp only [List.length_append]
      omega

/-! ## Claims -/

/-- C1: for every input triple, the query `get_stock_data` constructs and sends
contains `region = "TW"` and `includeAdjustedClose = true`, regardless of the
three inputs. -/
theorem region_and_adjclose_fixed (symbol interval range : String) :
    ("region", QVal.str "TW") ∈ buildQuery symbol interval range ∧
    ("includeAdjustedClose", QVal.bool true) ∈ buildQuery symbol interval range := by
  constructor <;> simp [buildQuery]

/-- C3: invoked with zero command-line arguments (`sys.argv` is just the
program name), the constructed query uses the default triple
`("2330.TW", "1d", "1y")`. -/
theorem zero_args_default_query (prog : String) :
    parseArgs [prog] = ("2330.TW", "1d", "1y") ∧
    programQuery [prog] = buildQuery "2330.TW" "1d" "1y" :=
  ⟨rfl, rfl⟩

/-- C4: no local validation: for every symbol, interval and range string
(including values outside the enumerated sets, such as `"3d"`), the strings are
forwarded unchanged in the query's fields and the call is never rejected
locally — the result is exactly whatever the capability returns. -/
theorem no_local_validation {ε : Type} (call_api : String → Query → Except ε Json)
    (symbol interval range : String) :
    get_stock_data call_api symbol interval range =
      call_api stockChartEndpoint (buildQuery symbol interval range) ∧
    ("symbol", QVal.str symbol) ∈ buildQuery symbol interval range ∧
    ("interval", QVal.str interval) ∈ buildQuery symbol interval range ∧
    ("range", QVal.str range) ∈ buildQuery symbol interval range := by
  refine ⟨rfl, ?_, ?_, ?_⟩ <;> simp [buildQuery]

/-- C5: a failure of the external capability is propagated exactly:
`get_stock_data` returns the capability's error unchanged, and the program run
ends in that same error with no output produced. -/
theorem error_propagated {ε : Type} (call_api : String → Query → Except ε Json)
    (symbol interval range : String) (e : ε)
    (h : call_api stockChartEndpoint (buildQuery symbol interval range) = Except.error e) :
    get_stock_data call_api symbol interval range = Except.error e ∧
    ∀ argv, parseArgs argv = (symbol, interval, range) →
      runProgram call_api argv = Except.error e ∧
      ∀ l, runProgram call_api argv ≠ Except.ok l := by
  refine ⟨h, fun argv hargv => ?_⟩
  have hrun : runProgram call_api argv = Except.error e := by
    simp [runProgram, hargv, get_stock_data, h, Except.map]
  exact ⟨hrun, fun l => by simp [hrun]⟩

/-- Witness for C5 at a concrete always-failing capability and the empty
command line. -/
theorem error_propagated_witness :
    get_stock_data errCap "2330.TW" "1d" "1y" = Except.error "boom" ∧
    runProgram errCap ["prog"] = Except.error "boom" :=
  ⟨(error_propagated errCap "2330.TW" "1d" "1y" "boom" rfl).1,
   ((error_propagated errCap "2330.TW" "1d" "1y" "boom" rfl).2 ["prog"] rfl).1⟩

/-- C6: along any execution of the step relation from the start state, the
trace of outbound calls has length at most one — and it is exactly the number
recorded by `callsMade`, so a run that has performed the fetch has made exactly
one call and can never make a second. -/
theorem at_most_one_outbound_call {ε : Type}
    {call_api : String → Query → Except ε Json} {argv : List String}
    {t : List Call} {s : PState ε} (h : Exec call_api (.start argv) t s) :
    t.length = callsMade s ∧ t.length ≤ 1 := by
  have hc := exec_calls h
  simp only [callsMade] at hc
  cases s <;> simp only [callsMade] at hc ⊢ <;> omega

/-- Witness for C6: the concrete one-fetch execution. -/
theorem at_most_one_outbound_call_witness :
    [(stockChartEndpoint, programQuery ["prog"])].length =
      callsMade (PState.fetched (okNullCap stockChartEndpoint (programQuery ["prog"]))) ∧
    [(stockChartEndpoint, programQuery ["prog"])].length ≤ 1 :=
  at_most_one_outbound_call (Exec.tail (Exec.refl _) (Step.fetch ["prog"]))

/-- C7: invoked with exactly one argument `"AAPL"`, the query has
`symbol = "AAPL"` while interval and range keep their defaults. -/
theorem one_arg_symbol (prog : String) :
    parseArgs [prog, "AAPL"] = ("AAPL", "1d", "1y") ∧
    programQuery [prog, "AAPL"] = buildQuery "AAPL" "1d" "1y" :=
  ⟨rfl, rfl⟩

/-- C8: invoked with the three arguments `"0050.TW" "1wk" "5y"`, the
constructed query is exactly the five-entry mapping, with no additional keys. -/
theorem three_args_exact_query (prog : String) :
    programQuery [prog, "0050.TW", "1wk", "5y"] =
      [("symbol", QVal.str "0050.TW"), ("interval", QVal.str "1wk"),
       ("range", QVal.str "5y"), ("region", QVal.str "TW"),
       ("includeAdjustedClose", QVal.bool true)] :=
  rfl

/-- C9: the function's own parameter defaults coincide with the CLI-layer
defaults: omitting interval and range equals passing `"1d"` and `"1y"`, and the
CLI defaults for those two positions are the same pair. -/
theorem defaults_coincide {ε : Type} (call_api : String → Query → Except ε Json)
    (symbol prog : String) :
    get_stock_data call_api symbol = get_stock_data call_api symbol "1d" "1y" ∧
    (parseArgs [prog]).2 = ("1d", "1y") :=
  ⟨rfl, rfl⟩

/-- C10: determinism: two runs whose command lines parse to the same
(symbol, interval, range) triple, against the same capability, construct
identical query mappings and produce equal results; nothing else influences
the query. -/
theorem run_deterministic {ε : Type} (call_api : String → Query → Except ε Json)
    (argv₁ argv₂ : List String) (h : parseArgs argv₁ = parseArgs argv₂) :
    programQuery argv₁ = programQuery argv₂ ∧
    runProgram call_api argv₁ = runProgram call_api argv₂ := by
  constructor <;> simp [programQuery, runProgram, h]

/-- Witness for C10: the bare command line and one spelling out all three
defaults parse identically, hence query and result coincide. -/
theorem run_deterministic_witness :
    programQuery ["p"] = programQuery ["q", "2330.TW", "1d", "1y"] ∧
    runProgram okNullCap ["p"] = runProgram okNullCap ["q", "2330.TW", "1d", "1y"] :=
  run_deterministic okNullCap ["p"] ["q", "2330.TW", "1d", "1y"] rfl

/-! ## A JSON parser, and the serializer round-trip

To state that the printed output *represents exactly* the returned structure,
we give a reference parser for the serializer's output language and prove
`jparse (jdumps v) = some v`: nothing is added, removed, or transformed. -/

/-- JSON insignificant whitespace. -/
def isWs (c : Char) : Bool :=
  c = ' ' || c = '\t' || c = '\n' || c = '\r'

/-- Drop leading whitespace. -/
def skipWs : List Char → List Char
  | [] => []
  | c :: cs => if isWs c then skipWs cs else c :: cs

/-- Decimal digit test (`'0' ≤ c ≤ '9'`, phrased on code points). -/
def isDig (c : Char) : Bool :=
  48 ≤ c.toNat && c.toNat ≤ 57

/-- Value of one hexadecimal digit (either case). -/
def hexVal (c : Char) : Option Nat :=
  if 48 ≤ c.toNat ∧ c.toNat ≤ 57 then some (c.toNat - 48)
  else if 97 ≤ c.toNat ∧ c.toNat ≤ 102 then some (c.toNat - 87)
  else if 65 ≤ c.toNat ∧ c.toNat ≤ 70 then some (c.toNat - 55)
  else none

/-- Value of a 4-digit hexadecimal code unit. -/
def hex4 (h1 h2 h3 h4 : Char) : Option Nat := do
  let a ← hexVal h1
  let b ← hexVal h2
  let c ← hexVal h3
  let d ← hexVal h4
  pure (((a * 16 + b) * 16 + c) * 16 + d)

/-- The character denoted by a single-character escape `\e`. -/
def escCode (e : Char) : Option Char :=
  if e = '"' then some '"'
  else if e = '\\' then some '\\'
  else if e = '/' then some '/'
  else if e = 'b' then some '\x08'
  else if e = 'f' then some '\x0c'
  else if e = 'n' then some '\n'
  else if e = 'r' then some '\r'
  else if e = 't' then some '\t'
  else none

/-- One step of decoding after `\\u`: four hex digits have produced code unit
`n`; a high surrogate must be followed by an escaped low surrogate, the pair
denoting one character; a lone low surrogate is rejected. -/
def pairStep (n : Nat) (cs : List Char)
    (cont : List Char → Option (List Char × List Char)) :
    Option (List Char × List Char) :=
  if 55296 ≤ n ∧ n < 56320 then
    match cs with
    | b1 :: b2 :: g1 :: g2 :: g3 :: g4 :: cs₁ =>
      if b1 = '\\' ∧ b2 = 'u' then
        match hex4 g1 g2 g3 g4 with
        | none => none
        | some m =>
          if 56320 ≤ m ∧ m < 57344 then
            (cont cs₁).bind fun p =>
              some (Char.ofNat (65536 + (n - 55296) * 1024 + (m - 56320)) :: p.1, p.2)
          else none
      else none
    | _ => none
  else if 56320 ≤ n ∧ n < 57344 then none
  else (cont cs).bind fun p => some (Char.ofNat n :: p.1, p.2)

/-- Decoding after `\\u`: read four hex digits, then `pairStep`. -/
def uStep (cs : List Char) (cont : List Char → Option (List Char × List Char)) :
    Option (List Char × List Char) :=
  match cs with
  | h1 :: h2 :: h3 :: h4 :: cs₁ =>
    match hex4 h1 h2 h3 h4 with
    | none => none
    | some n => pairStep n cs₁ cont
  | _ => none

/-- Parse the body of a string literal after the opening quote, up to and
including the closing quote; `\uXXXX` escapes are decoded, with surrogate
pairs recombined into the single character they denote.  Fuel-indexed; one
unit of fuel is spent per produced character, and one for the closing quote. -/
def parseStrBody : Nat → List Char → Option (List Char × List Char)
  | 0, _ => none
  | _ + 1, [] => none
  | fuel + 1, c :: cs =>
    if c = '"' then some ([], cs)
    else if c = '\\' then
      match cs with
      | [] => none
      | e :: cs₁ =>
        if e = 'u' then uStep cs₁ (fun l => parseStrBody fuel l)
        else
          match escCode e with
          | none => none
          | some c₁ => (parseStrBody fuel cs₁).bind fun p => some (c₁ :: p.1, p.2)
    else (parseStrBody fuel cs).bind fun p => some (c :: p.1, p.2)

/-- Longest prefix of decimal digits, decoded, with the remainder. -/
def parseDigits : List Char → List Nat × List Char
  | [] => ([], [])
  | c :: cs =>
    if isDig c then
      let (ds, r) := parseDigits cs
      ((c.toNat - 48) :: ds, r)
    else ([], c :: cs)

/-- Value of a big-endian list of decimal digits. -/
def digitsVal (ds : List Nat) : Nat :=
  ds.foldl (fun a d => 10 * a + d) 0

/-- Parse an optionally negated decimal integer. -/
def parseNum : List Char → Option (Int × List Char)
  | [] => none
  | c :: cs =>
    if c = '-' then
      let (ds, r) := parseDigits cs
      if ds.isEmpty then none else some (-(digitsVal ds : Int), r)
    else
      let (ds, r) := parseDigits (c :: cs)
      if ds.isEmpty then none else some ((digitsVal ds : Int), r)

/-- Recognize a fixed three-character keyword tail. -/
def expect3 (a b c : Char) (v : Json) (cs : List Char) : Option (Json × List Char) :=
  match cs with
  | x :: y :: z :: r => if x = a ∧ y = b ∧ z = c then some (v, r) else none
  | _ => none

/-- Recognize a fixed four-character keyword tail. -/
def expect4 (a b c d : Char) (v : Json) (cs : List Char) : Option (Json × List Char) :=
  match cs with
  | x :: y :: z :: w :: r => if x = a ∧ y = b ∧ z = c ∧ w = d then some (v, r) else none
  | _ => none

/-- After `[`: either an immediately closed empty array, or the elements. -/
def arrStep (cs : List Char)
    (elems : List Char → Option (List Json × List Char)) :
    Option (Json × List Char) :=
  match skipWs cs with
  | [] => none
  | c₁ :: cs₁ =>
    if c₁ = ']' then some (Json.arr [], cs₁)
    else (elems (c₁ :: cs₁)).bind fun p => some (Json.arr p.1, p.2)

/-- After `{`: either an immediately closed empty object, or the members. -/
def objStep (cs : List Char)
    (mems : List Char → Option (List (List Char × Json) × List Char)) :
    Option (Json × List Char) :=
  match skipWs cs with
  | [] => none
  | c₁ :: cs₁ =>
    if c₁ = '}' then some (Json.obj [], cs₁)
    else (mems (c₁ :: cs₁)).bind fun p => some (Json.obj p.1, p.2)

/-- After one array element: close on `]`, continue on `,`. -/
def elemSep (v : Json) (r : List Char)
    (elems : List Char → Option (List Json × List Char)) :
    Option (List Json × List Char) :=
  match skipWs r with
  | [] => none
  | c₁ :: r₁ =>
    if c₁ = ']' then some ([v], r₁)
    else if c₁ = ',' then (elems r₁).bind fun q => some (v :: q.1, q.2)
    else none

/-- After one object member: close on `}`, continue on `,`. -/
def memberSep (k : List Char) (v : Json) (r : List Char)
    (mems : List Char → Option (List (List Char × Json) × List Char)) :
    Option (List (List Char × Json) × List Char) :=
  match skipWs r with
  | [] => none
  | c₂ :: r₃ =>
    if c₂ = '}' then some ([(k, v)], r₃)
    else if c₂ = ',' then (mems r₃).bind fun q => some ((k, v) :: q.1, q.2)
    else none

/-- After an object key: expect `:`, then the value, then `memberSep`. -/
def memberTail (k : List Char) (r : List Char)
    (val : List Char → Option (Json × List Char))
    (mems : List Char → Option (List (List Char × Json) × List Char)) :
    Option (List (List Char × Json) × List Char) :=
  match skipWs r with
  | [] => none
  | c₁ :: r₁ =>
    if c₁ = ':' then (val r₁).bind fun p => memberSep k p.1 p.2 mems
    else none

mutual

/-- Parse one JSON value (fuel-indexed recursive descent). -/
def parseVal : Nat → List Char → Option (Json × List Char)
  | 0, _ => none
  | fuel + 1, s =>
    match skipWs s with
    | [] => none
    | c :: cs =>
      if c = 'n' then expect3 'u' 'l' 'l' Json.null cs
      else if c = 't' then expect3 'r' 'u' 'e' (Json.bool true) cs
      else if c = 'f' then expect4 'a' 'l' 's' 'e' (Json.bool false) cs
      else if c = '"' then (parseStrBody fuel cs).bind fun p => some (Json.str p.1, p.2)
      else if c = '[' then arrStep cs (fun l => parseElems fuel l)
      else if c = '{' then objStep cs (fun l => parseMembers fuel l)
      else (parseNum (c :: cs)).bind fun p => some (Json.num p.1, p.2)

/-- Parse the elements of a non-empty array, consuming the closing bracket. -/
def parseElems : Nat → List Char → Option (List Json × List Char)
  | 0, _ => none
  | fuel + 1, s =>
    (parseVal fuel s).bind fun p => elemSep p.1 p.2 (fun l => parseElems fuel l)

/-- Parse the members of a non-empty object, consuming the closing brace. -/
def parseMembers : Nat → List Char → Option (List (List Char × Json) × List Char)
  | 0, _ => none
  | fuel + 1, s =>
    match skipWs s with
    | [] => none
    | c₀ :: cs =>
      if c₀ = '"' then
        (parseStrBody fuel cs).bind fun p =>
          memberTail p.1 p.2 (fun l => parseVal fuel l) (fun l => parseMembers fuel l)
      else none

end

/-- Parse a complete JSON document (trailing whitespace allowed, as in
`json.loads`). -/
def jparse (s : List Char) : Option Json :=
  match parseVal (s.length + 1) s with
  | some (v, r) => if skipWs r = [] then some v else none
  | none => none

/-! ### Round-trip lemmas: the parser inverts the serializer -/

theorem skipWs_cons {c : Char} (cs : List Char) (h : isWs c = false) :
    skipWs (c :: cs) = c :: cs := by
  simp [skipWs, h]

theorem skipWs_space (s : List Char) : skipWs (' ' :: s) = skipWs s := by
  simp [skipWs, isWs]

theorem char_valid_nat (c : Char) :
    c.toNat < 55296 ∨ (57344 ≤ c.toNat ∧ c.toNat < 1114112) := c.valid

theorem hexVal_hexDigitChar : ∀ n, n < 16 → hexVal (hexDigitChar n) = some n := by
  decide

theorem hex4_uEsc {n : Nat} (h : n < 65536) :
    hex4 (hexDigitChar (n / 4096 % 16)) (hexDigitChar (n / 256 % 16))
      (hexDigitChar (n / 16 % 16)) (hexDigitChar (n % 16)) = some n := by
  have e1 := hexVal_hexDigitChar (n / 4096 % 16) (by omega)
  have e2 := hexVal_hexDigitChar (n / 256 % 16) (by omega)
  have e3 := hexVal_hexDigitChar (n / 16 % 16) (by omega)
  have e4 := hexVal_hexDigitChar (n % 16) (by omega)
  simp only [hex4, e1, e2, e3, e4, Option.bind_eq_bind, Option.some_bind,
    Option.some.injEq, pure]
  omega

theorem escChar_length_pos (c : Char) : 1 ≤ (escChar c).length := by
  unfold escChar
  split_ifs <;> simp [uEsc]

theorem length_le_flatten_escChar (s : List Char) :
    s.length ≤ ((s.map escChar).flatten).length := by
  induction s with
  | nil => simp
  | cons c s ih =>
    have h1 := escChar_length_pos c
    simp only [List.map_cons, List.flatten_cons, List.length_append, List.length_cons]
    omega

theorem psb_upair (a1 a2 a3 a4 b1 b2 b3 b4 : Char) (n m : Nat) (T : List Char) (f : Nat)
    (hn : hex4 a1 a2 a3 a4 = some n) (hm : hex4 b1 b2 b3 b4 = some m)
    (h1 : 55296 ≤ n ∧ n < 56320) (h2 : 56320 ≤ m ∧ m < 57344) :
    parseStrBody (f + 1)
      ('\\' :: 'u' :: a1 :: a2 :: a3 :: a4 :: '\\' :: 'u' :: b1 :: b2 :: b3 :: b4 :: T) =
      (parseStrBody f T).bind fun p =>
        some (Char.ofNat (65536 + (n - 55296) * 1024 + (m - 56320)) :: p.1, p.2) := by
  simp [parseStrBody, uStep, pairStep, hn, hm, h1, h2]

theorem parseStrBody_strLit (s : List Char) : ∀ (fuel : Nat) (rest : List Char),
    s.length + 1 ≤ fuel →
    parseStrBody fuel ((s.map escChar).flatten ++ '"' :: rest) = some (s, rest) := by
  induction s with
  | nil =>
    intro fuel rest hf
    cases fuel with
    | zero => exact absurd hf (by omega)
    | succ f => simp [parseStrBody]
  | cons c s ih =>
    intro fuel rest hf
    cases fuel with
    | zero => exact absurd hf (by simp at hf ⊢)
    | succ f =>
      have hsf : s.length + 1 ≤ f := by
        simp only [List.length_cons] at hf; omega
      have ihf := ih f rest hsf
      simp only [List.map_cons, List.flatten_cons, List.append_assoc]
      by_cases h1 : c = '"'
      · subst h1; simp [escChar, parseStrBody, escCode, ihf]
      by_cases h2 : c = '\\'
      · subst h2; simp [escChar, parseStrBody, escCode, ihf]
      by_cases h3 : c = '\x08'
      · subst h3; simp [escChar, parseStrBody, escCode, ihf]
      by_cases h4 : c = '\x0c'
      · subst h4; simp [escChar, parseStrBody, escCode, ihf]
      by_cases h5 : c = '\n'
      · subst h5; simp [escChar, parseStrBody, escCode, ihf]
      by_cases h6 : c = '\r'
      · subst h6; simp [escChar, parseStrBody, escCode, ihf]
      by_cases h7 : c = '\t'
      · subst h7; simp [escChar, parseStrBody, escCode, ihf]
      by_cases h8 : c.toNat < 32 ∨ 127 ≤ c.toNat
      · have hvalid := char_valid_nat c
        by_cases h9 : c.toNat < 65536
        · have hesc : escChar c = uEsc c.toNat := by
            rw [escChar, if_neg h1, if_neg h2, if_neg h3, if_neg h4, if_neg h5,
              if_neg h6, if_neg h7, if_pos h8, if_pos h9]
          have hx := hex4_uEsc (n := c.toNat) h9
          have hlo : ¬(55296 ≤ c.toNat ∧ c.toNat < 56320) := by omega
          have hhi : ¬(56320 ≤ c.toNat ∧ c.toNat < 57344) := by omega
          rw [hesc, uEsc]
          simp [parseStrBody, uStep, pairStep, hx, hlo, hhi, ihf, Char.ofNat_toNat]
        · have hesc : escChar c =
              uEsc (55296 + (c.toNat - 65536) / 1024) ++
              uEsc (56320 + (c.toNat - 65536) % 1024) := by
            rw [escChar, if_neg h1, if_neg h2, if_neg h3, if_neg h4, if_neg h5,
              if_neg h6, if_neg h7, if_pos h8, if_neg h9]
          have hxhi := hex4_uEsc (n := 55296 + (c.toNat - 65536) / 1024) (by omega)
          have hxlo := hex4_uEsc (n := 56320 + (c.toNat - 65536) % 1024) (by omega)
          rw [hesc, uEsc, uEsc]
          simp only [List.cons_append, List.nil_append, List.append_assoc]
          rw [psb_upair _ _ _ _ _ _ _ _ _ _ _ _ hxhi hxlo (by omega) (by omega), ihf]
          simp only [Option.some_bind]
          rw [show 65536 + (55296 + (c.toNat - 65536) / 1024 - 55296) * 1024 +
              (56320 + (c.toNat - 65536) % 1024 - 56320) = c.toNat from by omega,
            Char.ofNat_toNat]
      · have hesc : escChar c = [c] := by
          rw [escChar, if_neg h1, if_neg h2, if_neg h3, if_neg h4, if_neg h5,
            if_neg h6, if_neg h7, if_neg h8]
        rw [hesc]
        simp [parseStrBody, h1, h2, ihf]

/-- The remainder after a serialized number never begins with another digit. -/
def noDigitStart (s : List Char) : Prop :=
  match s with
  | [] => True
  | c :: _ => isDig c = false

theorem digitChar_isDig : ∀ d, d < 10 →
    isDig (Nat.digitChar d) = true ∧ (Nat.digitChar d).toNat = 48 + d := by
  decide

theorem isDig_bounds {c : Char} (h : isDig c = true) :
    48 ≤ c.toNat ∧ c.toNat ≤ 57 := by
  simpa [isDig] using h

theorem isDig_ne {c : Char} (h : isDig c = true) {x : Char} (hx : isDig x = false) :
    c ≠ x := by
  intro hcx
  subst hcx
  rw [h] at hx
  exact Bool.noConfusion hx

theorem isDig_not_ws {c : Char} (h : isDig c = true) : isWs c = false := by
  obtain ⟨hl, hr⟩ := isDig_bounds h
  rw [Bool.eq_false_iff]
  intro habs
  simp only [isWs, Bool.or_eq_true, decide_eq_true_eq] at habs
  rcases habs with ((h1 | h2) | h3) | h4 <;> subst_vars <;>
    exact absurd hl (by decide)

theorem parseDigits_append (ds rest : List Char)
    (hds : ∀ c ∈ ds, isDig c = true) (hrest : noDigitStart rest) :
    parseDigits (ds ++ rest) = (ds.map (fun c => c.toNat - 48), rest) := by
  induction ds with
  | nil =>
    cases rest with
    | nil => rfl
    | cons c t =>
      simp only [noDigitStart] at hrest
      simp [parseDigits, hrest]
  | cons c ds ih =>
    have hc := hds c (by simp)
    have iht := ih (fun x hx => hds x (by simp [hx]))
    simp [parseDigits, hc, iht]

theorem foldr_eq_ofDigits (l : List Nat) :
    l.foldr (fun d a => 10 * a + d) 0 = Nat.ofDigits 10 l := by
  induction l with
  | nil => simp [Nat.ofDigits_nil]
  | cons d t ih =>
    simp only [List.foldr_cons, Nat.ofDigits_cons, ih]
    omega

theorem digitsVal_reverse_digits (n : Nat) :
    digitsVal ((Nat.digits 10 n).reverse) = n := by
  rw [digitsVal, List.foldl_reverse]
  have := foldr_eq_ofDigits (Nat.digits 10 n)
  rw [show (fun x y => 10 * y + x) = (fun (d a : Nat) => 10 * a + d) from rfl] at *
  rw [this]
  exact Nat.ofDigits_digits 10 n

theorem natChars_all_dig (n : Nat) : ∀ c ∈ natChars n, isDig c = true := by
  intro c hc
  rw [natChars] at hc
  by_cases h0 : n = 0
  · rw [if_pos h0] at hc
    simp only [List.mem_singleton] at hc
    subst hc
    decide
  · rw [if_neg h0] at hc
    simp only [List.mem_map, List.mem_reverse] at hc
    obtain ⟨d, hd, rfl⟩ := hc
    exact (digitChar_isDig d (Nat.digits_lt_base (by norm_num) hd)).1

theorem natChars_ne_nil (n : Nat) : natChars n ≠ [] := by
  rw [natChars]
  split_ifs with h
  · simp
  · simp [Nat.digits_ne_nil_iff_ne_zero.mpr h]

theorem digitsVal_natChars (n : Nat) :
    digitsVal ((natChars n).map (fun c => c.toNat - 48)) = n := by
  by_cases h0 : n = 0
  · subst h0; decide
  · rw [natChars, if_neg h0, List.map_map]
    have hmap : ((Nat.digits 10 n).reverse).map ((fun c => c.toNat - 48) ∘ Nat.digitChar)
        = (Nat.digits 10 n).reverse := by
      have hid : ∀ d ∈ (Nat.digits 10 n).reverse,
          ((fun c => c.toNat - 48) ∘ Nat.digitChar) d = id d := by
        intro d hd
        rw [List.mem_reverse] at hd
        have h10 := Nat.digits_lt_base (by norm_num) hd
        have h48 := (digitChar_isDig d h10).2
        simp only [Function.comp_apply, id_eq, h48]
        omega
      rw [List.map_congr_left hid, List.map_id]
    rw [hmap]
    exact digitsVal_reverse_digits n

theorem parseNum_intChars (n : Int) (rest : List Char) (hrest : noDigitStart rest) :
    parseNum (intChars n ++ rest) = some (n, rest) := by
  have hpdn : ∀ m : Nat, parseDigits (natChars m ++ rest)
      = ((natChars m).map (fun c => c.toNat - 48), rest) :=
    fun m => parseDigits_append (natChars m) rest (natChars_all_dig m) hrest
  have hnen : ∀ m : Nat, ((natChars m).map (fun c => c.toNat - 48)).isEmpty = false := by
    intro m
    rw [List.isEmpty_eq_false_iff_exists_mem]
    obtain ⟨c, t, hct⟩ : ∃ c t, natChars m = c :: t := by
      rcases hnc : natChars m with _ | ⟨c, t⟩
      · exact absurd hnc (natChars_ne_nil m)
      · exact ⟨c, t, rfl⟩
    exact ⟨c.toNat - 48, by rw [hct]; simp⟩
  rw [intChars]
  split_ifs with hneg
  · simp only [List.cons_append]
    simp only [parseNum, hpdn, hnen, digitsVal_natChars]
    simp only [Bool.false_eq_true, if_false, if_pos, Option.some.injEq, Prod.mk.injEq]
    constructor
    · omega
    · trivial
  · obtain ⟨c, t, hct⟩ : ∃ c t, natChars n.toNat = c :: t := by
      rcases hnc : natChars n.toNat with _ | ⟨c, t⟩
      · exact absurd hnc (natChars_ne_nil _)
      · exact ⟨c, t, rfl⟩
    have hcd : isDig c = true := natChars_all_dig _ c (by rw [hct]; simp)
    have hcne : ¬(c = '-') := isDig_ne hcd (by decide)
    rw [hct, List.cons_append]
    simp only [parseNum]
    rw [if_neg hcne]
    rw [show c :: (t ++ rest) = natChars n.toNat ++ rest from by rw [hct, List.cons_append]]
    simp only [hpdn, hnen, digitsVal_natChars]
    simp only [Bool.false_eq_true, if_false, Option.some.injEq, Prod.mk.injEq]
    constructor
    · omega
    · trivial

theorem noDigitStart_nil : noDigitStart [] := trivial

theorem noDigitStart_cons {c : Char} {r : List Char} (h : isDig c = false) :
    noDigitStart (c :: r) := h

theorem intChars_head (n : Int) : ∃ c t, intChars n = c :: t ∧
    isWs c = false ∧ c ≠ 'n' ∧ c ≠ 't' ∧ c ≠ 'f' ∧ c ≠ '"' ∧ c ≠ '[' ∧ c ≠ '{' ∧
    c ≠ ']' ∧ c ≠ '}' := by
  rw [intChars]
  split_ifs with hneg
  · exact ⟨'-', natChars n.natAbs, rfl, by decide, by decide, by decide, by decide,
      by decide, by decide, by decide, by decide, by decide⟩
  · obtain ⟨c, t, hct⟩ : ∃ c t, natChars n.toNat = c :: t := by
      rcases hnc : natChars n.toNat with _ | ⟨c, t⟩
      · exact absurd hnc (natChars_ne_nil _)
      · exact ⟨c, t, rfl⟩
    have hcd : isDig c = true := natChars_all_dig _ c (by rw [hct]; simp)
    exact ⟨c, t, hct, isDig_not_ws hcd, isDig_ne hcd (by decide), isDig_ne hcd (by decide),
      isDig_ne hcd (by decide), isDig_ne hcd (by decide), isDig_ne hcd (by decide),
      isDig_ne hcd (by decide), isDig_ne hcd (by decide), isDig_ne hcd (by decide)⟩

theorem jdumps_head (v : Json) : ∃ c t, jdumps v = c :: t ∧
    isWs c = false ∧ c ≠ ']' ∧ c ≠ '}' := by
  cases v with
  | null => exact ⟨'n', ['u', 'l', 'l'], by simp [jdumps], by decide, by decide, by decide⟩
  | bool b =>
    cases b with
    | true => exact ⟨'t', ['r', 'u', 'e'], by simp [jdumps], by decide, by decide, by decide⟩
    | false =>
      exact ⟨'f', ['a', 'l', 's', 'e'], by simp [jdumps], by decide, by decide, by decide⟩
  | num n =>
    obtain ⟨c, t, hct, hws, -, -, -, -, -, -, hbr, hbc⟩ := intChars_head n
    exact ⟨c, t, by simp [jdumps, hct], hws, hbr, hbc⟩
  | str s =>
    exact ⟨'"', (s.map escChar).flatten ++ ['"'], by simp [jdumps, strLit],
      by decide, by decide, by decide⟩
  | arr elts =>
    exact ⟨'[', jdumpsElems elts ++ [']'], by simp [jdumps], by decide, by decide, by decide⟩
  | obj ms =>
    exact ⟨'{', jdumpsMembers ms ++ ['}'], by simp [jdumps], by decide, by decide, by decide⟩

theorem jdumps_length_pos (v : Json) : 1 ≤ (jdumps v).length := by
  obtain ⟨c, t, h, -, -, -⟩ := jdumps_head v
  rw [h]
  simp

theorem parseVal_space (fuel : Nat) (s : List Char) :
    parseVal fuel (' ' :: s) = parseVal fuel s := by
  cases fuel with
  | zero => rfl
  | succ f => simp only [parseVal, skipWs_space]

theorem parseElems_space (fuel : Nat) (s : List Char) :
    parseElems fuel (' ' :: s) = parseElems fuel s := by
  cases fuel with
  | zero => rfl
  | succ f => simp only [parseElems, parseVal_space]

theorem parseMembers_space (fuel : Nat) (s : List Char) :
    parseMembers fuel (' ' :: s) = parseMembers fuel s := by
  cases fuel with
  | zero => rfl
  | succ f => simp only [parseMembers, skipWs_space]

theorem jdumpsElems_cons (x : Json) (xs : List Json) :
    jdumpsElems (x :: xs) =
      jdumps x ++ (if xs.isEmpty then [] else ',' :: ' ' :: jdumpsElems xs) := by
  cases xs <;> simp [jdumpsElems]

theorem jdumpsMembers_cons (k : List Char) (v : Json) (ms : List (List Char × Json)) :
    jdumpsMembers ((k, v) :: ms) =
      strLit k ++ ':' :: ' ' ::
        (jdumps v ++ (if ms.isEmpty then [] else ',' :: ' ' :: jdumpsMembers ms)) := by
  cases ms with
  | nil => simp [jdumpsMembers]
  | cons m ms =>
    rcases m with ⟨k₂, v₂⟩
    simp [jdumpsMembers]

theorem arrStep_cons {c₀ : Char} (t : List Char) (hws : isWs c₀ = false)
    (hbr : c₀ ≠ ']') (elems : List Char → Option (List Json × List Char)) :
    arrStep (c₀ :: t) elems = (elems (c₀ :: t)).bind fun p => some (Json.arr p.1, p.2) := by
  simp [arrStep, skipWs_cons t hws, hbr]

theorem objStep_cons {c₀ : Char} (t : List Char) (hws : isWs c₀ = false)
    (hbr : c₀ ≠ '}') (mems : List Char → Option (List (List Char × Json) × List Char)) :
    objStep (c₀ :: t) mems = (mems (c₀ :: t)).bind fun p => some (Json.obj p.1, p.2) := by
  simp [objStep, skipWs_cons t hws, hbr]

theorem arrStep_nonempty {l : List Char} {c₀ : Char} {t : List Char} (hl : l = c₀ :: t)
    (hws : isWs c₀ = false) (hbr : c₀ ≠ ']')
    (elems : List Char → Option (List Json × List Char)) :
    arrStep l elems = (elems l).bind fun p => some (Json.arr p.1, p.2) := by
  subst hl
  exact arrStep_cons t hws hbr elems

theorem objStep_nonempty {l : List Char} {c₀ : Char} {t : List Char} (hl : l = c₀ :: t)
    (hws : isWs c₀ = false) (hbr : c₀ ≠ '}')
    (mems : List Char → Option (List (List Char × Json) × List Char)) :
    objStep l mems = (mems l).bind fun p => some (Json.obj p.1, p.2) := by
  subst hl
  exact objStep_cons t hws hbr mems

theorem parse_jdumps (fuel : Nat) :
    (∀ v rest, (jdumps v).length ≤ fuel → noDigitStart rest →
      parseVal fuel (jdumps v ++ rest) = some (v, rest)) ∧
    (∀ xs rest, xs ≠ [] → (jdumpsElems xs).length + 1 ≤ fuel →
      parseElems fuel (jdumpsElems xs ++ ']' :: rest) = some (xs, rest)) ∧
    (∀ ms rest, ms ≠ [] → (jdumpsMembers ms).length + 1 ≤ fuel →
      parseMembers fuel (jdumpsMembers ms ++ '}' :: rest) = some (ms, rest)) := by
  induction fuel with
  | zero =>
    refine ⟨fun v rest hlen _ => absurd hlen ?_, fun xs rest hne hlen => absurd hlen ?_,
      fun ms rest hne hlen => absurd hlen ?_⟩
    · have := jdumps_length_pos v
      omega
    · omega
    · omega
  | succ f ih =>
    obtain ⟨ihP, ihQ, ihR⟩ := ih
    refine ⟨fun v rest hlen hrest => ?_, fun xs rest hne hlen => ?_,
      fun ms rest hne hlen => ?_⟩
    · cases v with
      | null => simp [jdumps, parseVal, skipWs, isWs, expect3]
      | bool b => cases b <;> simp [jdumps, parseVal, skipWs, isWs, expect3, expect4]
      | num n =>
        obtain ⟨c, t, hct, hws, h1, h2, h3, h4, h5, h6, -, -⟩ := intChars_head n
        have hback : c :: (t ++ rest) = intChars n ++ rest := by
          rw [hct, List.cons_append]
        simp only [jdumps, hct, List.cons_append, parseVal, skipWs_cons _ hws]
        simp [h1, h2, h3, h4, h5, h6]
        rw [hback, parseNum_intChars n rest hrest]
        rfl
      | str s =>
        have hkf : s.length + 1 ≤ f := by
          have h1 := length_le_flatten_escChar s
          have h2 : (jdumps (Json.str s)).length = ((s.map escChar).flatten).length + 2 := by
            simp [jdumps, strLit]
          omega
        simp only [jdumps, strLit, List.cons_append, List.append_assoc,
          List.singleton_append, parseVal, skipWs_cons _ (by decide : isWs '"' = false)]
        simp
        rw [parseStrBody_strLit s f rest hkf]
        rfl
      | arr elts =>
        cases elts with
        | nil => simp [jdumps, jdumpsElems, parseVal, skipWs, isWs, arrStep]
        | cons x xs =>
          have hlen2 : (jdumpsElems (x :: xs)).length + 1 ≤ f := by
            have h2 : (jdumps (Json.arr (x :: xs))).length
                = (jdumpsElems (x :: xs)).length + 2 := by
              simp [jdumps]
            omega
          have hQ := ihQ (x :: xs) rest (by simp) hlen2
          obtain ⟨c₀, t₀, hx, hxws, hxbr, -⟩ := jdumps_head x
          have hT : jdumpsElems (x :: xs) ++ ']' :: rest =
              c₀ :: (t₀ ++ ((if xs.isEmpty then [] else ',' :: ' ' :: jdumpsElems xs)
                ++ ']' :: rest)) := by
            rw [jdumpsElems_cons, hx]
            simp [List.append_assoc]
          simp only [jdumps, List.cons_append, List.append_assoc,
            List.singleton_append, parseVal, skipWs_cons _ (by decide : isWs '[' = false)]
          rw [if_neg (by decide : ¬('[' = 'n')), if_neg (by decide : ¬('[' = 't')),
            if_neg (by decide : ¬('[' = 'f')), if_neg (by decide : ¬('[' = '"')),
            if_pos (by trivial)]
          rw [show ']' :: ([] ++ rest) = ']' :: rest from rfl]
          rw [arrStep_nonempty hT hxws hxbr]
          rw [hQ]
          rfl
      | obj ms =>
        cases ms with
        | nil => simp [jdumps, jdumpsMembers, parseVal, skipWs, isWs, objStep]
        | cons m ms =>
          rcases m with ⟨k, v⟩
          have hlen2 : (jdumpsMembers ((k, v) :: ms)).length + 1 ≤ f := by
            have h2 : (jdumps (Json.obj ((k, v) :: ms))).length
                = (jdumpsMembers ((k, v) :: ms)).length + 2 := by
              simp [jdumps]
            omega
          have hR := ihR ((k, v) :: ms) rest (by simp) hlen2
          have hT : jdumpsMembers ((k, v) :: ms) ++ '}' :: rest =
              '"' :: ((k.map escChar).flatten ++ '"' :: ':' :: ' ' ::
                (jdumps v ++ ((if ms.isEmpty then [] else ',' :: ' ' :: jdumpsMembers ms)
                  ++ '}' :: rest))) := by
            rw [jdumpsMembers_cons, strLit]
            simp [List.append_assoc]
          simp only [jdumps, List.cons_append, List.append_assoc,
            List.singleton_append, parseVal, skipWs_cons _ (by decide : isWs '{' = false)]
          rw [if_neg (by decide : ¬('{' = 'n')), if_neg (by decide : ¬('{' = 't')),
            if_neg (by decide : ¬('{' = 'f')), if_neg (by decide : ¬('{' = '"')),
            if_neg (by decide : ¬('{' = '[')), if_pos (by trivial)]
          rw [show '}' :: ([] ++ rest) = '}' :: rest from rfl]
          rw [objStep_nonempty hT (by decide) (by decide)]
          rw [hR]
          rfl
    · rcases xs with _ | ⟨x, xs⟩
      · exact absurd rfl hne
      · cases xs with
        | nil =>
          have hPlen : (jdumps x).length ≤ f := by
            simp only [jdumpsElems] at hlen
            omega
          have hP := ihP x (']' :: rest) hPlen (noDigitStart_cons (by decide))
          simp only [jdumpsElems, parseElems]
          rw [hP]
          simp [elemSep, skipWs_cons _ (by decide : isWs ']' = false)]
        | cons y ys =>
          have hxpos := jdumps_length_pos x
          have hlens : (jdumpsElems (x :: y :: ys)).length
              = (jdumps x).length + 2 + (jdumpsElems (y :: ys)).length := by
            simp [jdumpsElems]
            omega
          have hPlen : (jdumps x).length ≤ f := by omega
          have hQlen : (jdumpsElems (y :: ys)).length + 1 ≤ f := by omega
          have hP := ihP x (',' :: ' ' :: (jdumpsElems (y :: ys) ++ ']' :: rest)) hPlen
            (noDigitStart_cons (by decide))
          have hQ := ihQ (y :: ys) rest (by simp) hQlen
          simp only [jdumpsElems, parseElems, List.cons_append, List.append_assoc]
          rw [hP]
          simp only [Option.some_bind]
          simp only [elemSep, skipWs_cons _ (by decide : isWs ',' = false)]
          simp
          rw [parseElems_space, hQ]
          rfl
    · rcases ms with _ | ⟨⟨k, v⟩, ms⟩
      · exact absurd rfl hne
      · have hkpos := length_le_flatten_escChar k
        have hvpos := jdumps_length_pos v
        cases ms with
        | nil =>
          have hlens : (jdumpsMembers [(k, v)]).length
              = ((k.map escChar).flatten).length + 4 + (jdumps v).length := by
            simp [jdumpsMembers, strLit]
            omega
          have hkf : k.length + 1 ≤ f := by omega
          have hvf : (jdumps v).length ≤ f := by omega
          have hP := ihP v ('}' :: rest) hvf (noDigitStart_cons (by decide))
          simp only [jdumpsMembers, strLit, List.cons_append, List.append_assoc,
            List.singleton_append, parseMembers,
            skipWs_cons _ (by decide : isWs '"' = false)]
          simp
          rw [parseStrBody_strLit k f _ hkf]
          simp only [Option.some_bind]
          simp only [memberTail, skipWs_cons _ (by decide : isWs ':' = false)]
          simp
          rw [parseVal_space, hP]
          simp only [Option.some_bind]
          simp [memberSep, skipWs_cons _ (by decide : isWs '}' = false)]
        | cons m ms =>
          rcases m with ⟨k₂, v₂⟩
          have hlens : (jdumpsMembers ((k, v) :: (k₂, v₂) :: ms)).length
              = ((k.map escChar).flatten).length + 6 + (jdumps v).length
                + (jdumpsMembers ((k₂, v₂) :: ms)).length := by
            simp [jdumpsMembers, strLit]
            omega
          have hkf : k.length + 1 ≤ f := by omega
          have hvf : (jdumps v).length ≤ f := by omega
          have hmf : (jdumpsMembers ((k₂, v₂) :: ms)).length + 1 ≤ f := by omega
          have hP := ihP v
            (',' :: ' ' :: (jdumpsMembers ((k₂, v₂) :: ms) ++ '}' :: rest)) hvf
            (noDigitStart_cons (by decide))
          have hR := ihR ((k₂, v₂) :: ms) rest (by simp) hmf
          simp only [jdumpsMembers, strLit, List.cons_append, List.append_assoc,
            List.singleton_append, parseMembers,
            skipWs_cons _ (by decide : isWs '"' = false)]
          simp
          rw [parseStrBody_strLit k f _ hkf]
          simp only [Option.some_bind]
          simp only [memberTail, skipWs_cons _ (by decide : isWs ':' = false)]
          simp
          rw [parseVal_space, hP]
          simp only [Option.some_bind]
          simp only [memberSep, skipWs_cons _ (by decide : isWs ',' = false)]
          simp
          rw [parseMembers_space, hR]
          rfl

/-- Serializer round-trip: parsing the printed output recovers exactly the
serialized value — the output loses, adds, and transforms nothing. -/
theorem jparse_jdumps (v : Json) : jparse (jdumps v) = some v := by
  have h := (parse_jdumps ((jdumps v).length + 1)).1 v [] (by omega) noDigitStart_nil
  rw [List.append_nil] at h
  rw [jparse, h]
  simp [skipWs]

/-- A capability returning a fixed structured sample response. -/
def sampleResponse : Json :=
  Json.obj [(['c', 'h', 'a', 'r', 't'],
    Json.arr [Json.num 150, Json.num (-3), Json.num 0, Json.str ['a', '\n'],
      Json.bool true, Json.bool false, Json.null, Json.arr [], Json.obj []])]

/-- A capability that always succeeds with `sampleResponse`. -/
def okSampleCap : String → Query → Except String Json :=
  fun _ _ => Except.ok sampleResponse

/-- C2: the program prints exactly the JSON serialization of the structure the
capability returned: the run's output is `json.dumps` of that value, and
parsing the printed text recovers the value itself — no field is added,
removed, or transformed between the capability's return and the printed
JSON. -/
theorem output_identity_passthrough {ε : Type}
    (call_api : String → Query → Except ε Json) (argv : List String) (v : Json)
    (h : call_api stockChartEndpoint (programQuery argv) = Except.ok v) :
    runProgram call_api argv = Except.ok (jdumps v) ∧
    jparse (jdumps v) = some v := by
  constructor
  · rcases hpa : parseArgs argv with ⟨s, i, r⟩
    simp only [programQuery, hpa] at h
    simp [runProgram, hpa, get_stock_data, h, Except.map]
  · exact jparse_jdumps v

/-- Witness for C2 at a concrete capability and response. -/
theorem output_identity_passthrough_witness :
    runProgram okSampleCap ["prog"] = Except.ok (jdumps sampleResponse) ∧
    jparse (jdumps sampleResponse) = some sampleResponse :=
  output_identity_passthrough okSampleCap ["prog"] sampleResponse rfl
